import Mathlib

/-!
Shallow embedding of src/textcompressor.py (the feature-complete variant:
filtering, binary fallback, multipart splitting) together with proofs about
the claims of its specification.

Modelling conventions, fixed once and used consistently below:

* A Python string that is handled line-wise is represented by its list of
  physical lines, each line a `String` that contains no newline character;
  Python `readlines` keeps the trailing newline of each line, and every
  archive produced by the program ends each physical line with a newline,
  so a raw Python line `l ++ "\n"` is represented here by the
  newline-free `l`.  Consequently `rstrip("\n")` is the identity on a
  represented line.
* The content of a text file is represented as the list of pieces obtained
  by splitting the content string at newline characters (Python
  `content.split("\n")`); the content string is the intercalation of the
  pieces with a newline.  A Python split never yields an empty list, so a
  well-formed content is a nonempty list of newline-free pieces.
* Binary file bytes are `List Nat` (each < 256 in reality; the base64
  encoder below is total on `Nat` via `List.getD`).
* Filesystem reads are modelled by an association list
  `List (String × List String)` from path to lines; filesystem writes and
  directory creations performed by the decoder are reified as a list of
  `FsEffect` values in execution order, so that statements about what is
  mutated (and when nothing is) are direct.
* Python `str.strip()` is modelled with `Char.isWhitespace` (space, tab,
  CR, LF), which agrees with Python on every character the program's
  markers and the proofs here involve.
-/

namespace TextCompressor

/-! ### Python string primitives -/

/-- Python `s.startswith(pre)`. -/
def pyStartsWith (pre s : String) : Bool :=
  List.isPrefixOf pre.data s.data

/-- Python `s[n:]` (slicing by code points). -/
def pyDrop (s : String) (n : Nat) : String :=
  ⟨s.data.drop n⟩

/-- Python `s.strip()` on a character list: drop whitespace from both ends. -/
def stripWs (l : List Char) : List Char :=
  ((l.dropWhile Char.isWhitespace).reverse.dropWhile Char.isWhitespace).reverse

/-- Python `s.strip()`. -/
def pyStrip (s : String) : String :=
  ⟨stripWs s.data⟩

/-- Python `s.lower()` (ASCII case folding, which covers every character
the program's filters, markers and the proofs here involve). -/
def pyLower (s : String) : String :=
  ⟨s.data.map Char.toLower⟩

/-- Character class used by Python `s.strip(" >")`. -/
def isSpaceGt (c : Char) : Bool :=
  c == ' ' || c == '>'

/-- Python `s.strip(" >")`: drop spaces and greater-than signs from both ends. -/
def stripSpaceGt (s : String) : String :=
  ⟨((s.data.dropWhile isSpaceGt).reverse.dropWhile isSpaceGt).reverse⟩

/-- Python `os.path.dirname` restricted to a root-relative path: everything
before the last slash, empty if the path has no slash.  (The code calls
`os.path.dirname(os.path.join(output_dir, rel))`; relative to the output
directory that is exactly `dirnameRel rel`.) -/
def dirnameRel (s : String) : String :=
  ⟨(((s.data.reverse).dropWhile (fun c => c != '/')).drop 1).reverse⟩

/-- Python `os.path.splitext` on a character list, returning (base, ext).
The extension starts at the last dot, provided that dot lies after the last
path separator and the basename characters before it are not all dots
(so a leading-dot name such as ".gitignore" has no extension). -/
def pySplitextCL (l : List Char) : List Char × List Char :=
  let r := l.reverse
  let tail := r.takeWhile (fun c => c != '.' && c != '/')
  match r.drop tail.length with
  | '.' :: before =>
    if (before.takeWhile (fun c => c != '/')).any (fun c => c != '.') then
      (before.reverse, '.' :: tail.reverse)
    else (l, [])
  | _ => (l, [])

/-- Python `os.path.splitext`. -/
def pySplitext (s : String) : String × String :=
  ((⟨(pySplitextCL s.data).1⟩ : String), (⟨(pySplitextCL s.data).2⟩ : String))

/-! ### Markers and the introduction banner (module constants) -/

def MARKER_PROJECT_START : String := "<<<PROJECT_ARCHIVE_START>>>"
def MARKER_PROJECT_END : String := "<<<PROJECT_ARCHIVE_END>>>"
def MARKER_DIR : String := "<<<DIR:"
def MARKER_FILE_START : String := "<<<FILE_START:"
def MARKER_FILE_END : String := "<<<FILE_END>>>"
def MARKER_FILE_BINARY_START : String := "<<<FILE_BINARY_START:"
def MARKER_FILE_BINARY_END : String := "<<<FILE_BINARY_END>>>"

/-- The INTRODUCTION constant followed by the extra "\n" the code appends,
as its list of physical lines (the triple-quoted string itself ends in a
newline, so the appended "\n" contributes a final empty line). -/
def introLines : List String :=
  ["=== INTRODUCTION ===",
   "This file represents the entire structure of a software project. It has been generated automatically and contains:",
   "- The entire directory and file hierarchy.",
   "- Text files included in full.",
   "- (Binary files are compressed only if the \x27compress_binary\x27 option is enabled.)",
   "The markers used are:",
   "  • <<<PROJECT_ARCHIVE_START>>>: start of the archive.",
   "  • <<<DIR: [relative_path] >>>: indicates a directory.",
   "  • <<<FILE_START: [relative_path] >>> and <<<FILE_END>>>: delimit a file in text mode.",
   "The file follows this schema to allow an AI or automatic parsing tools to understand and, if necessary, reconstruct the original project structure.",
   "=====================",
   ""]

/-- The marker line `f"{MARKER_DIR_PREFIX} {rel_dir} >>>"`. -/
def dirLine (p : String) : String :=
  MARKER_DIR ++ " " ++ p ++ " >>>"

/-- The marker line `f"{MARKER_FILE_START_PREFIX} {rel_file_path} >>>"`. -/
def fileStartLine (p : String) : String :=
  MARKER_FILE_START ++ " " ++ p ++ " >>>"

/-- The marker line `f"{MARKER_FILE_BINARY_START_PREFIX} {rel_file_path} >>>"`. -/
def binStartLine (p : String) : String :=
  MARKER_FILE_BINARY_START ++ " " ++ p ++ " >>>"

/-! ### Filter -/

/-- The function `should_include_file(filename, white_list, black_list)`. -/
def should_include_file (filename : String) (white_list black_list : List String) : Bool :=
  let ext := pyLower (pySplitext filename).2
  if !white_list.isEmpty && !((white_list.map pyLower).contains ext) then
    false
  else if !black_list.isEmpty && (black_list.map pyLower).contains ext then
    false
  else
    true

/-! ### Base64 (Python base64.b64encode on raw bytes) -/

def b64Alpha : List Char :=
  "ABCDEFGHIJKLMNOPQRSTUVWXYZabcdefghijklmnopqrstuvwxyz0123456789+/".data

def b64char (n : Nat) : Char :=
  b64Alpha.getD n 'A'

/-- Standard base64 encoding of a byte list, producing the single payload
line the encoder emits. -/
def b64encode : List Nat → String
  | [] => ""
  | [a] =>
    (⟨[b64char (a / 4), b64char (a % 4 * 16), '=', '=']⟩ : String)
  | [a, b] =>
    (⟨[b64char (a / 4), b64char (a % 4 * 16 + b / 16), b64char (b % 16 * 4), '=']⟩ : String)
  | a :: b :: c :: rest =>
    (⟨[b64char (a / 4), b64char (a % 4 * 16 + b / 16), b64char (b % 16 * 4 + c / 64),
       b64char (c % 64)]⟩ : String) ++ b64encode rest

/-! ### Data model: directory trees as seen by os.walk -/

/-- What reading one file can yield: text decodes; text decode fails but a
binary read succeeds; or both reads fail. -/
inductive FileData where
  | text (pieces : List String)
  | binary (bytes : List Nat)
  | unreadable
deriving DecidableEq

mutual
/-- A directory: its direct files (name, data) in listing order, and its
child directories. -/
inductive Tree where
  | node (files : List (String × FileData)) (subs : Forest)
deriving DecidableEq

/-- The ordered list of child directories of a directory. -/
inductive Forest where
  | nil
  | cons (name : String) (child : Tree) (rest : Forest)
deriving DecidableEq
end

/-- One entry produced by the walk, carrying its root-relative path as a
list of path segments. -/
inductive Entry where
  | dir (segs : List String)
  | file (segs : List String) (data : FileData)
deriving DecidableEq

/-- Join path segments with "/" (the chain of `os.path.join` the code
performs; the root is the empty relative path). -/
def joinSegs : List String → String
  | [] => ""
  | [s] => s
  | s :: rest => s ++ "/" ++ joinSegs rest

mutual
/-- The `os.walk` traversal with the in-place pruning
`dirs[:] = [d for d in dirs if d.lower() not in [b.lower() for b in black_list]]`
and the per-file `should_include_file` filter: the entries the compression
loop visits, in order. -/
def walkTree (wl bl : List String) (segs : List String) : Tree → List Entry
  | .node files subs =>
    .dir segs ::
      (files.filterMap fun fd =>
        if should_include_file fd.1 wl bl then some (Entry.file (segs ++ [fd.1]) fd.2)
        else none)
      ++ walkForest wl bl segs subs

/-- Walk the kept children of a directory in order. -/
def walkForest (wl bl : List String) (segs : List String) : Forest → List Entry
  | .nil => []
  | .cons name child rest =>
    (if (bl.map pyLower).contains (pyLower name) then []
     else walkTree wl bl (segs ++ [name]) child)
      ++ walkForest wl bl segs rest
end

/-- A diagnostic printed to stderr by the compression loop. -/
inductive Diag where
  | skippedNotText (path : String)
  | binaryReadError (path : String)
deriving DecidableEq

/-- The body of the compression loop for one entry: the lines appended to
`output_lines` and the diagnostics printed.  A text file contributes its
start marker, its content followed by the one appended newline (hence
exactly its pieces as physical lines), and the end marker. -/
def renderEntry (cb : Bool) : Entry → List String × List Diag
  | .dir segs => ([dirLine (joinSegs segs)], [])
  | .file segs d =>
    match d with
    | .text pieces =>
      (fileStartLine (joinSegs segs) :: pieces ++ [MARKER_FILE_END], [])
    | .binary bytes =>
      if cb then
        ([binStartLine (joinSegs segs), b64encode bytes, MARKER_FILE_BINARY_END], [])
      else
        ([], [.skippedNotText (joinSegs segs)])
    | .unreadable =>
      if cb then ([], [.binaryReadError (joinSegs segs)])
      else ([], [.skippedNotText (joinSegs segs)])

/-- The function `compress_project`, up to the final `write_lines_to_files`
call: the full ordered physical-line sequence of the archive, and the
diagnostics emitted.  The line list is the introduction banner, the start
marker, the rendered entries in walk order, and the end marker. -/
def compress_project (t : Tree) (wl bl : List String) (cb : Bool) :
    List String × List Diag :=
  let rendered := (walkTree wl bl [] t).map (renderEntry cb)
  (introLines ++ MARKER_PROJECT_START :: (rendered.map Prod.fst).flatten
     ++ [MARKER_PROJECT_END],
   (rendered.map Prod.snd).flatten)

/-! ### Splitter -/

def MAX_LINES_PER_FILE : Nat := 4000

/-- The multipart file name `f"{base}_part{k}{ext}"`. -/
def partName (output_file : String) (k : Nat) : String :=
  (pySplitext output_file).1 ++ "_part" ++ toString k ++ (pySplitext output_file).2

/-- The function `write_lines_to_files` with the module constant
`MAX_LINES_PER_FILE` abstracted as `threshold`: the ordered list of
(path, lines) writes it performs.  Each write opens the file in "w" mode
(after removing a pre-existing file), so it replaces any previous content. -/
def write_lines_core (threshold : Nat) (output_file : String) (lines : List String) :
    List (String × List String) :=
  if lines.length ≤ threshold then
    [(output_file, lines)]
  else
    let parts := (lines.length + threshold - 1) / threshold
    (List.range parts).map fun p =>
      (partName output_file (p + 1), (lines.drop (p * threshold)).take threshold)

/-- The function `write_lines_to_files` as shipped. -/
def write_lines_to_files : String → List String → List (String × List String) :=
  write_lines_core MAX_LINES_PER_FILE

/-! ### Reassembler -/

/-- The probing loop of `combine_multipart_archive`: read parts `k`,
`k+1`, … while they exist, concatenating their lines.  The Python loop is
bounded only by the filesystem; on the finite filesystems modelled here a
missing part is always reached within `fs.length + 1` probes, which is the
fuel the wrapper passes. -/
def probeParts (fs : List (String × List String)) (input_file : String) :
    Nat → Nat → List String
  | 0, _ => []
  | fuel + 1, k =>
    match List.lookup (partName input_file k) fs with
    | some ls => ls ++ probeParts fs input_file fuel (k + 1)
    | none => []

/-- The function `combine_multipart_archive`: the direct file's lines if it
exists, else the concatenation of the numbered parts; `none` when the
combined line list is empty. -/
def combine_multipart_archive (fs : List (String × List String)) (input_file : String) :
    Option (List String) :=
  match List.lookup input_file fs with
  | some ls => some ls
  | none =>
    let combined := probeParts fs input_file (fs.length + 1) 1
    if combined ≠ [] then some combined else none

/-! ### Decoder -/

/-- A filesystem mutation performed by `decompress_project`, relative to
the output directory: `os.makedirs(..., exist_ok=True)` or a file write
(open mode "w", so an overwrite).  Written content is represented in the
piece convention: the raw lines captured (each followed by its newline in
reality) joined, i.e. the captured lines with one final empty piece. -/
inductive FsEffect where
  | mkdirp (path : String)
  | writeFile (path : String) (pieces : List String)
deriving DecidableEq, Repr

/-- The two fatal outcomes of `decompress_project`. -/
inductive DErr where
  | archiveNotFound
  | invalidFormat
deriving DecidableEq, Repr

mutual
/-- The scanning loop of `decompress_project` from just after the start
marker, one line per step: project end stops; a DIR line creates the
directory; a FILE_START line creates the recorded path's parent directory
and enters the content-capturing inner loop; anything else is skipped. -/
def parseEntries : List String → List FsEffect
  | [] => []
  | line :: rest =>
    if line = MARKER_PROJECT_END then []
    else if pyStartsWith MARKER_DIR line then
      .mkdirp (stripSpaceGt (pyDrop line MARKER_DIR.length)) :: parseEntries rest
    else if pyStartsWith MARKER_FILE_START line then
      let p := stripSpaceGt (pyDrop line MARKER_FILE_START.length)
      .mkdirp (dirnameRel p) :: parseFile p [] rest
    else
      parseEntries rest

/-- The inner while loop of the text-file branch: accumulate raw lines
(kept here in reverse) until one whitespace-strips to the FILE_END marker
or the input ends, then write the captured content — the joined raw lines,
i.e. the captured lines plus the final empty piece — and resume scanning
past the FILE_END line. -/
def parseFile (p : String) (acc : List String) : List String → List FsEffect
  | [] => [.writeFile p (acc.reverse ++ [""])]
  | line :: rest =>
    if pyStrip line = MARKER_FILE_END then
      .writeFile p (acc.reverse ++ [""]) :: parseEntries rest
    else
      parseFile p (line :: acc) rest
end

/-- The start-marker scan of `decompress_project`: `start_index` is set to
the index of the first line that strips to the start marker, and keeps its
initial value 0 when no line matches. -/
def findStartIdx (lines : List String) : Nat :=
  (lines.findIdx? fun l => pyStrip l == MARKER_PROJECT_START).getD 0

/-- The body of `decompress_project` on an already resolved line sequence:
the invalid-format check (which compares `start_index` against 0), then
the scanning loop from `start_index + 1`.  Returns the filesystem effects
in order and the fatal outcome, if any. -/
def decompress_lines (lines : List String) : List FsEffect × Option DErr :=
  let start_index := findStartIdx lines
  if start_index = 0 then ([], some .invalidFormat)
  else (parseEntries (lines.drop (start_index + 1)), none)

/-- The function `decompress_project`: resolve the archive (direct file or
parts) and run the decoder. -/
def decompress_project (fs : List (String × List String)) (input_file : String) :
    List FsEffect × Option DErr :=
  match combine_multipart_archive fs input_file with
  | none => ([], some .archiveNotFound)
  | some lines => decompress_lines lines

/-! ### Well-formedness predicates

These express, decidably, that a tree is representable in the line-based
archive format under the modelling conventions above: names are nonempty,
contain no newline and no path separator, and do not begin or end with a
character that the marker-line `strip(" >")` parsing would eat; text
contents are nonempty piece lists of newline-free pieces. -/

/-- A directory or file name the format can carry faithfully. -/
def goodNameB (s : String) : Bool :=
  !s.data.isEmpty &&
  s.data.all (fun c => c != '\n' && c != '/') &&
  !isSpaceGt (s.data.headD 'a') &&
  !isSpaceGt (s.data.getLastD 'a')

/-- A representable text content: a nonempty list of newline-free pieces. -/
def goodPiecesB (pieces : List String) : Bool :=
  !pieces.isEmpty && pieces.all fun l => l.data.all (fun c => c != '\n')

/-- Pieces none of which whitespace-strips to the FILE_END marker (the
condition under which the decoder recovers a text block exactly). -/
def noEndMarkerB (pieces : List String) : Bool :=
  pieces.all fun l => pyStrip l != MARKER_FILE_END

mutual
/-- All names in the tree are good and all text contents representable. -/
def goodTreeB : Tree → Bool
  | .node files subs =>
    (files.all fun fd =>
      goodNameB fd.1 &&
        (match fd.2 with
         | .text pieces => goodPiecesB pieces
         | _ => true)) && goodForestB subs

/-- Forest version of goodTreeB. -/
def goodForestB : Forest → Bool
  | .nil => true
  | .cons name child rest => goodNameB name && goodTreeB child && goodForestB rest
end

mutual
/-- Every file of the tree decodes as text. -/
def textOnlyB : Tree → Bool
  | .node files subs =>
    (files.all fun fd => match fd.2 with | .text _ => true | _ => false) && textOnlyForestB subs

/-- Forest version of textOnlyB. -/
def textOnlyForestB : Forest → Bool
  | .nil => true
  | .cons _ child rest => textOnlyB child && textOnlyForestB rest
end

mutual
/-- No text content line of the tree whitespace-strips to FILE_END. -/
def noEndMarkerTreeB : Tree → Bool
  | .node files subs =>
    (files.all fun fd =>
      match fd.2 with
      | .text pieces => noEndMarkerB pieces
      | _ => true) && noEndMarkerForestB subs

/-- Forest version of noEndMarkerTreeB. -/
def noEndMarkerForestB : Forest → Bool
  | .nil => true
  | .cons _ child rest => noEndMarkerTreeB child && noEndMarkerForestB rest
end

mutual
/-- The filter configuration admits the whole tree: every file passes
should_include_file and no directory name is pruned by the blacklist. -/
def admitsAllB (wl bl : List String) : Tree → Bool
  | .node files subs =>
    (files.all fun fd => should_include_file fd.1 wl bl) && admitsAllForestB wl bl subs

/-- Forest version of admitsAllB. -/
def admitsAllForestB (wl bl : List String) : Forest → Bool
  | .nil => true
  | .cons name child rest =>
    !((bl.map pyLower).contains (pyLower name)) &&
      admitsAllB wl bl child && admitsAllForestB wl bl rest
end

/-! ### Expected results, phrased over the tree -/

mutual
/-- The filesystem mutations that materialize the tree under the output
root, in decode order: each directory is created (the root as the empty
relative path), and each text file first has its parent directory created
and is then written with its content followed by the one trailing newline
the encoder appended (one extra empty final piece). -/
def restoredTree (segs : List String) : Tree → List FsEffect
  | .node files subs =>
    .mkdirp (joinSegs segs) ::
      (files.flatMap fun fd =>
        match fd.2 with
        | .text pieces =>
          [.mkdirp (joinSegs segs), .writeFile (joinSegs (segs ++ [fd.1])) (pieces ++ [""])]
        | _ => []) ++ restoredForest segs subs

/-- Forest version of restoredTree. -/
def restoredForest (segs : List String) : Forest → List FsEffect
  | .nil => []
  | .cons name child rest =>
    restoredTree (segs ++ [name]) child ++ restoredForest segs rest
end

/-- The filesystem effects the decoder performs for the rendered block of
one walk entry: a directory marker creates the directory; a text block
creates the parent directory and writes the captured content plus the
final empty piece; binary blocks and skipped files produce nothing
(binary marker and payload lines fall through the scanner's final,
effect-free branch). -/
def effectsOfEntry : Entry → List FsEffect
  | .dir segs => [.mkdirp (joinSegs segs)]
  | .file segs (.text pieces) =>
    [.mkdirp (joinSegs segs.dropLast), .writeFile (joinSegs segs) (pieces ++ [""])]
  | .file _ (.binary _) => []
  | .file _ .unreadable => []

mutual
/-- Tree with every file that cannot be encoded removed: an unreadable
file always, and a binary file when the binary fallback is disabled. -/
def scrubTree (cb : Bool) : Tree → Tree
  | .node files subs =>
    .node
      (files.filter fun fd =>
        match fd.2 with
        | .text _ => true
        | .binary _ => cb
        | .unreadable => false)
      (scrubForest cb subs)

/-- Forest version of scrubTree. -/
def scrubForest (cb : Bool) : Forest → Forest
  | .nil => .nil
  | .cons name child rest => .cons name (scrubTree cb child) (scrubForest cb rest)
end

mutual
/-- The diagnostics compression emits, one per admitted file that cannot
be encoded: a skip notice when binary fallback is disabled, a binary read
error for a file whose binary read also fails. -/
def badDiagsTree (wl bl : List String) (cb : Bool) (segs : List String) : Tree → List Diag
  | .node files subs =>
    (files.flatMap fun fd =>
      if should_include_file fd.1 wl bl then
        match fd.2 with
        | .text _ => []
        | .binary _ =>
          if cb then [] else [.skippedNotText (joinSegs (segs ++ [fd.1]))]
        | .unreadable =>
          if cb then [.binaryReadError (joinSegs (segs ++ [fd.1]))]
          else [.skippedNotText (joinSegs (segs ++ [fd.1]))]
      else []) ++ badDiagsForest wl bl cb segs subs

/-- Forest version of badDiagsTree. -/
def badDiagsForest (wl bl : List String) (cb : Bool) (segs : List String) : Forest → List Diag
  | .nil => []
  | .cons name child rest =>
    (if (bl.map pyLower).contains (pyLower name) then []
     else badDiagsTree wl bl cb (segs ++ [name]) child)
      ++ badDiagsForest wl bl cb segs rest
end

/-- The directory-denoting segments of an entry's path: all segments for a
directory entry, all but the final (file name) segment for a file entry. -/
def dirSegsOf : Entry → List String
  | .dir segs => segs
  | .file segs _ => segs.dropLast

/-- Well-formedness of one walk entry, as needed for exact decoding: the
path segments are good names, and a text content has no line that strips
to the FILE_END marker.  Binary and unreadable entries need nothing: their
rendered lines are skipped by the decoder whatever the path is. -/
def goodEntryB : Entry → Bool
  | .dir segs => segs.all goodNameB
  | .file segs (.text pieces) => segs.all goodNameB && noEndMarkerB pieces
  | .file _ (.binary _) => true
  | .file _ .unreadable => true

/-- The extension exactly as claim C5 words it: the substring from the
last dot to the end, lower-cased, empty if the name has no dot.  (Stated
from the specification text, to be compared against the code's
pySplitext-based extension.) -/
def specExt (filename : String) : String :=
  let tail := filename.data.reverse.takeWhile fun c => c != '.'
  if tail.length = filename.data.length then ""
  else pyLower ⟨'.' :: tail.reverse⟩

/-- The include rule exactly as claim C5 words it, built on specExt. -/
def spec_should_include (filename : String) (white_list black_list : List String) : Bool :=
  ((white_list.isEmpty) || (white_list.map pyLower).contains (specExt filename)) &&
  ((black_list.isEmpty) || !((black_list.map pyLower).contains (specExt filename)))

/-! ### Basic list and string lemmas -/

theorem strData_append (a b : String) : (a ++ b).data = a.data ++ b.data := rfl

theorem strEta (s : String) : (⟨s.data⟩ : String) = s := rfl

theorem dropWhile_append_all {α : Type} (p : α → Bool) (l1 l2 : List α)
    (h : ∀ x ∈ l1, p x = true) :
    (l1 ++ l2).dropWhile p = l2.dropWhile p := by
  induction l1 with
  | nil => rfl
  | cons a as ih =>
    simp only [List.cons_append, List.dropWhile_cons, h a (List.mem_cons_self a as), if_pos]
    exact ih fun x hx => h x (List.mem_cons_of_mem a hx)

theorem takeWhile_append_all {α : Type} (p : α → Bool) (l1 l2 : List α)
    (h : ∀ x ∈ l1, p x = true) :
    (l1 ++ l2).takeWhile p = l1 ++ l2.takeWhile p := by
  induction l1 with
  | nil => rfl
  | cons a as ih =>
    simp only [List.cons_append, List.takeWhile_cons, h a (List.mem_cons_self a as), if_pos]
    rw [ih fun x hx => h x (List.mem_cons_of_mem a hx)]

theorem findIdx?_append_first {α : Type} (p : α → Bool) (xs : List α) (y : α)
    (rest : List α) (hxs : ∀ x ∈ xs, p x = false) (hy : p y = true) :
    ∀ i, List.findIdx? p (xs ++ y :: rest) i = some (i + xs.length) := by
  induction xs with
  | nil => intro i; simp [List.findIdx?_cons, hy]
  | cons a as ih =>
    intro i
    have ha : p a = false := hxs a (List.mem_cons_self a as)
    simp only [List.cons_append, List.findIdx?_cons, ha, Bool.false_eq_true, if_false]
    rw [ih (fun x hx => hxs x (List.mem_cons_of_mem a hx)) (i + 1)]
    simp only [List.length_cons, Option.some.injEq]
    omega

theorem ne_of_startsWith_mismatch {pre s t : String}
    (hs : pyStartsWith pre s = true) (ht : pyStartsWith pre t = false) : s ≠ t := by
  intro h
  rw [h, ht] at hs
  cases hs

theorem getLastD_eq_headD_reverse {α : Type} (l : List α) (d : α) :
    l.getLastD d = l.reverse.headD d := by
  rw [List.getLastD_eq_getLast?, List.headD_eq_head?, List.head?_reverse]

/-- Strip-roundtrip: the decoder's `strip(" >")` applied to the slice
`" " ++ p ++ " >>>"` left of a marker line recovers p, provided p is empty
or neither starts nor ends with a space or a greater-than sign. -/
theorem stripSpaceGt_wrap (l : List Char)
    (h : l = [] ∨ (isSpaceGt (l.headD 'a') = false ∧ isSpaceGt (l.getLastD 'a') = false)) :
    stripSpaceGt ⟨' ' :: (l ++ [' ', '>', '>', '>'])⟩ = ⟨l⟩ := by
  rcases h with h | ⟨hhead, hlast⟩
  · subst h; rfl
  · cases l with
    | nil => rfl
    | cons c cs =>
      simp only [List.headD_cons] at hhead
      unfold stripSpaceGt
      have h1 : (' ' :: (c :: cs ++ [' ', '>', '>', '>'])).dropWhile isSpaceGt
          = c :: cs ++ [' ', '>', '>', '>'] := by
        rw [List.dropWhile_cons, if_pos (by decide), List.cons_append, List.dropWhile_cons,
          if_neg (by simp [hhead])]
      simp only [h1]
      have h2 : (c :: cs ++ [' ', '>', '>', '>']).reverse
          = '>' :: '>' :: '>' :: ' ' :: (c :: cs).reverse := by
        simp
      rw [h2]
      have h3 : ('>' :: '>' :: '>' :: ' ' :: (c :: cs).reverse).dropWhile isSpaceGt
          = (c :: cs).reverse.dropWhile isSpaceGt := by
        simp [List.dropWhile_cons, isSpaceGt]
      rw [h3]
      have hne : (c :: cs).reverse ≠ [] := by simp
      obtain ⟨d, ds, hds⟩ := List.exists_cons_of_ne_nil hne
      have hd : isSpaceGt d = false := by
        rw [getLastD_eq_headD_reverse, hds] at hlast
        simpa using hlast
      rw [hds, List.dropWhile_cons, if_neg (by simp [hd]), ← hds, List.reverse_reverse]

/-! ### Marker-line facts -/

theorem pyDrop_dirLine (p : String) :
    pyDrop (dirLine p) MARKER_DIR.length
      = (⟨' ' :: (p.data ++ [' ', '>', '>', '>'])⟩ : String) := rfl

theorem pyDrop_fileStartLine (p : String) :
    pyDrop (fileStartLine p) MARKER_FILE_START.length
      = (⟨' ' :: (p.data ++ [' ', '>', '>', '>'])⟩ : String) := rfl

theorem dirLine_sw_dir (p : String) : pyStartsWith MARKER_DIR (dirLine p) = true := rfl

theorem dirLine_ne_end (p : String) : dirLine p ≠ MARKER_PROJECT_END :=
  @ne_of_startsWith_mismatch "<<<D" _ _ rfl rfl

theorem fileStartLine_ne_end (p : String) : fileStartLine p ≠ MARKER_PROJECT_END :=
  @ne_of_startsWith_mismatch "<<<F" _ _ rfl rfl

theorem fileStartLine_not_dir (p : String) :
    pyStartsWith MARKER_DIR (fileStartLine p) = false := rfl

theorem fileStartLine_sw_file (p : String) :
    pyStartsWith MARKER_FILE_START (fileStartLine p) = true := rfl

theorem binStartLine_ne_end (p : String) : binStartLine p ≠ MARKER_PROJECT_END :=
  @ne_of_startsWith_mismatch "<<<F" _ _ rfl rfl

theorem binStartLine_not_dir (p : String) :
    pyStartsWith MARKER_DIR (binStartLine p) = false := rfl

theorem binStartLine_not_file (p : String) :
    pyStartsWith MARKER_FILE_START (binStartLine p) = false := rfl

theorem pyStrip_file_end : pyStrip MARKER_FILE_END = MARKER_FILE_END := by decide

/-! ### Base64 payload lines never look like markers -/

theorem b64char_not_lt (n : Nat) : b64char n ≠ '<' := by
  unfold b64char
  by_cases h : n < b64Alpha.length
  · rw [List.getD_eq_getElem _ _ h]
    have hmem : b64Alpha[n] ∈ b64Alpha := List.getElem_mem h
    revert hmem
    generalize b64Alpha[n] = c
    intro hmem
    have : ∀ c ∈ b64Alpha, c ≠ '<' := by decide
    exact this c hmem
  · rw [List.getD_eq_default _ _ (by omega)]
    decide

theorem b64encode_no_lt : ∀ (bs : List Nat), ∀ c ∈ (b64encode bs).data, c ≠ '<'
  | [] => by intro c hc; cases hc
  | [a] => by
    intro c hc
    have hc2 : c = b64char (a / 4) ∨ c = b64char (a % 4 * 16) ∨ c = '=' := by
      simpa [b64encode] using hc
    rcases hc2 with h | h | h
    · exact h ▸ b64char_not_lt _
    · exact h ▸ b64char_not_lt _
    · subst h; decide
  | [a, b] => by
    intro c hc
    have hc2 : c = b64char (a / 4) ∨ c = b64char (a % 4 * 16 + b / 16)
        ∨ c = b64char (b % 16 * 4) ∨ c = '=' := by
      simpa [b64encode] using hc
    rcases hc2 with h | h | h | h
    · exact h ▸ b64char_not_lt _
    · exact h ▸ b64char_not_lt _
    · exact h ▸ b64char_not_lt _
    · subst h; decide
  | a :: b :: c :: rest => by
    intro x hx
    have hx2 : x = b64char (a / 4) ∨ x = b64char (a % 4 * 16 + b / 16)
        ∨ x = b64char (b % 16 * 4 + c / 64) ∨ x = b64char (c % 64)
        ∨ x ∈ (b64encode rest).data := by
      simpa [b64encode, strData_append] using hx
    rcases hx2 with h | h | h | h | h
    · exact h ▸ b64char_not_lt _
    · exact h ▸ b64char_not_lt _
    · exact h ▸ b64char_not_lt _
    · exact h ▸ b64char_not_lt _
    · exact b64encode_no_lt rest x h

theorem isPrefixOf_lt_false (xs l : List Char) (h : ∀ c ∈ l, c ≠ '<') :
    List.isPrefixOf ('<' :: xs) l = false := by
  cases l with
  | nil => rfl
  | cons c cs =>
    have : ('<' == c) = false := by
      have := h c (List.mem_cons_self c cs)
      simp [BEq.beq]
      exact fun hc => (this hc.symm).elim

    simp [List.isPrefixOf, this]

theorem payload_ne_end (bs : List Nat) : b64encode bs ≠ MARKER_PROJECT_END := by
  intro h
  have : '<' ∈ (b64encode bs).data := by rw [h]; decide
  exact b64encode_no_lt bs '<' this rfl

theorem payload_not_dir (bs : List Nat) :
    pyStartsWith MARKER_DIR (b64encode bs) = false :=
  isPrefixOf_lt_false _ _ (b64encode_no_lt bs)

theorem payload_not_file (bs : List Nat) :
    pyStartsWith MARKER_FILE_START (b64encode bs) = false :=
  isPrefixOf_lt_false _ _ (b64encode_no_lt bs)

/-! ### Path lemmas -/

theorem goodNameB_facts {s : String} (h : goodNameB s = true) :
    s.data ≠ [] ∧ (∀ c ∈ s.data, c ≠ '\n' ∧ c ≠ '/') ∧
      isSpaceGt (s.data.headD 'a') = false ∧ isSpaceGt (s.data.getLastD 'a') = false := by
  simp only [goodNameB, Bool.and_eq_true, Bool.not_eq_true', List.all_eq_true] at h
  obtain ⟨⟨⟨h1, h2⟩, h3⟩, h4⟩ := h
  refine ⟨?_, ?_, h3, h4⟩
  · intro hnil
    rw [List.isEmpty_iff.mpr hnil] at h1
    cases h1
  · intro c hc
    have := h2 c hc
    simp only [Bool.and_eq_true, bne_iff_ne, ne_eq] at this
    exact this

theorem joinSegs_concat (segs : List String) (n : String) (h : segs ≠ []) :
    joinSegs (segs ++ [n]) = joinSegs segs ++ "/" ++ n := by
  induction segs with
  | nil => exact absurd rfl h
  | cons s rest ih =>
    cases rest with
    | nil => rfl
    | cons r rest2 =>
      have h1 : joinSegs ((s :: r :: rest2) ++ [n])
          = s ++ "/" ++ joinSegs ((r :: rest2) ++ [n]) := rfl
      rw [h1, ih (by simp)]
      have h2 : joinSegs (s :: r :: rest2) = s ++ "/" ++ joinSegs (r :: rest2) := rfl
      rw [h2]
      apply String.ext
      simp [strData_append, List.append_assoc]

theorem joinSegs_good_ends (segs : List String) (h : ∀ s ∈ segs, goodNameB s = true) :
    (joinSegs segs).data = [] ∨
      (isSpaceGt ((joinSegs segs).data.headD 'a') = false ∧
       isSpaceGt ((joinSegs segs).data.getLastD 'a') = false) := by
  induction segs with
  | nil => left; rfl
  | cons s rest ih =>
    right
    cases rest with
    | nil =>
      have hf := goodNameB_facts (h s (List.mem_cons_self s []))
      exact ⟨hf.2.2.1, hf.2.2.2⟩
    | cons r rest2 =>
      have hs := goodNameB_facts (h s (List.mem_cons_self s (r :: rest2)))
      have hrest := ih fun x hx => h x (List.mem_cons_of_mem s hx)
      have hdata : (joinSegs (s :: r :: rest2)).data
          = s.data ++ ('/' :: (joinSegs (r :: rest2)).data) := by
        have h1 : joinSegs (s :: r :: rest2) = s ++ "/" ++ joinSegs (r :: rest2) := rfl
        rw [h1]
        simp [strData_append]
      constructor
      · obtain ⟨c, cs, hcs⟩ := List.exists_cons_of_ne_nil hs.1
        rw [hdata, hcs]
        simp only [List.cons_append, List.headD_cons]
        rw [hcs] at hs
        simpa using hs.2.2.1
      · rw [hdata]
        cases hjoin : (joinSegs (r :: rest2)).data with
        | nil =>
          rw [List.getLastD_eq_getLast?, List.getLast?_append_of_ne_nil s.data (by simp)]
          decide
        | cons d ds =>
          rw [List.getLastD_eq_getLast?, List.getLast?_append_of_ne_nil s.data (by simp)]
          have h2 : ('/' :: d :: ds).getLast? = (d :: ds).getLast? := by
            rw [show ('/' :: d :: ds) = ['/'] ++ (d :: ds) by rfl,
              List.getLast?_append_of_ne_nil ['/'] (by simp)]
          rw [h2]
          rcases hrest with hnil | ⟨_, hlast⟩
          · rw [hjoin] at hnil; cases hnil
          · rw [hjoin, List.getLastD_eq_getLast?] at hlast
            rcases hgl : (d :: ds).getLast? with _ | c
            · simp [List.getLast?_eq_none_iff] at hgl
            · rw [hgl] at hlast
              simpa using hlast

theorem dirnameRel_noslash (s : String) (h : ∀ c ∈ s.data, c ≠ '/') :
    dirnameRel s = "" := by
  unfold dirnameRel
  have h1 : s.data.reverse.dropWhile (fun c => c != '/') = [] := by
    rw [List.dropWhile_eq_nil_iff]
    intro x hx
    simp only [List.mem_reverse] at hx
    simp [bne_iff_ne, h x hx]
  rw [h1]
  rfl

theorem dirnameRel_append_seg (l : List Char) (n : String)
    (hn : ∀ c ∈ n.data, c ≠ '/') :
    dirnameRel ⟨l ++ '/' :: n.data⟩ = ⟨l⟩ := by
  unfold dirnameRel
  have h1 : (l ++ '/' :: n.data).reverse = n.data.reverse ++ '/' :: l.reverse := by
    simp
  have h2 : ((⟨l ++ '/' :: n.data⟩ : String)).data = l ++ '/' :: n.data := rfl
  rw [h2, h1, dropWhile_append_all _ _ _ (by
    intro x hx
    simp only [List.mem_reverse] at hx
    simp [bne_iff_ne, hn x hx])]
  rw [List.dropWhile_cons, if_neg (by simp)]
  simp

theorem dirnameRel_joinSegs (segs : List String) (n : String)
    (hn : goodNameB n = true) (hs : ∀ s ∈ segs, goodNameB s = true) :
    dirnameRel (joinSegs (segs ++ [n])) = joinSegs segs := by
  cases segs with
  | nil =>
    exact dirnameRel_noslash n fun c hc => ((goodNameB_facts hn).2.1 c hc).2
  | cons s rest =>
    rw [joinSegs_concat _ _ (by simp)]
    have h1 : joinSegs (s :: rest) ++ "/" ++ n
        = ⟨(joinSegs (s :: rest)).data ++ '/' :: n.data⟩ := by
      apply String.ext
      simp [strData_append]
    rw [h1, dirnameRel_append_seg _ _ (fun c hc => ((goodNameB_facts hn).2.1 c hc).2)]

theorem dirnameRel_joinSegs_dropLast (segs : List String)
    (h : ∀ s ∈ segs, goodNameB s = true) :
    dirnameRel (joinSegs segs) = joinSegs segs.dropLast := by
  rcases List.eq_nil_or_concat segs with rfl | ⟨init, last, rfl⟩
  · rfl
  · simp only [List.concat_eq_append] at h ⊢
    rw [dirnameRel_joinSegs init last (h last (by simp))
      (fun s hs => h s (by simp [hs])), List.dropLast_concat]

theorem strip_marker_path (p : String)
    (h : p.data = [] ∨ (isSpaceGt (p.data.headD 'a') = false ∧
      isSpaceGt (p.data.getLastD 'a') = false)) :
    stripSpaceGt (⟨' ' :: (p.data ++ [' ', '>', '>', '>'])⟩ : String) = p := by
  rw [stripSpaceGt_wrap p.data h]

/-! ### Parser step lemmas -/

theorem binEnd_ne_end : MARKER_FILE_BINARY_END ≠ MARKER_PROJECT_END := by decide

theorem binEnd_not_dir : pyStartsWith MARKER_DIR MARKER_FILE_BINARY_END = false := by decide

theorem binEnd_not_file :
    pyStartsWith MARKER_FILE_START MARKER_FILE_BINARY_END = false := by decide

theorem parseEntries_nil : parseEntries [] = [] := by
  simp [parseEntries]

theorem parseEntries_end (rest : List String) :
    parseEntries (MARKER_PROJECT_END :: rest) = [] := by
  simp [parseEntries]

theorem parseEntries_dir (p : String) (rest : List String)
    (h : p.data = [] ∨ (isSpaceGt (p.data.headD 'a') = false ∧
      isSpaceGt (p.data.getLastD 'a') = false)) :
    parseEntries (dirLine p :: rest) = .mkdirp p :: parseEntries rest := by
  simp only [parseEntries]
  rw [if_neg (dirLine_ne_end p), if_pos (dirLine_sw_dir p), pyDrop_dirLine,
    strip_marker_path p h]

theorem parseEntries_skip (line : String) (rest : List String)
    (h1 : line ≠ MARKER_PROJECT_END)
    (h2 : pyStartsWith MARKER_DIR line = false)
    (h3 : pyStartsWith MARKER_FILE_START line = false) :
    parseEntries (line :: rest) = parseEntries rest := by
  simp only [parseEntries]
  rw [if_neg h1, if_neg (by simp [h2]), if_neg (by simp [h3])]

theorem parseFile_spec (p : String) (pieces : List String) :
    ∀ (acc rest : List String), (∀ l ∈ pieces, pyStrip l ≠ MARKER_FILE_END) →
      parseFile p acc (pieces ++ MARKER_FILE_END :: rest)
        = .writeFile p (acc.reverse ++ (pieces ++ [""])) :: parseEntries rest := by
  induction pieces with
  | nil =>
    intro acc rest _
    simp only [List.nil_append, parseFile]
    rw [if_pos pyStrip_file_end]
  | cons l ls ih =>
    intro acc rest hnem
    simp only [List.cons_append, parseFile, List.append_eq]
    rw [if_neg (hnem l (List.mem_cons_self l ls))]
    rw [ih (l :: acc) rest fun x hx => hnem x (List.mem_cons_of_mem l hx)]
    simp

theorem parseEntries_file (p : String) (pieces rest : List String)
    (hp : p.data = [] ∨ (isSpaceGt (p.data.headD 'a') = false ∧
      isSpaceGt (p.data.getLastD 'a') = false))
    (hnem : ∀ l ∈ pieces, pyStrip l ≠ MARKER_FILE_END) :
    parseEntries (fileStartLine p :: (pieces ++ MARKER_FILE_END :: rest))
      = .mkdirp (dirnameRel p) :: .writeFile p (pieces ++ [""]) :: parseEntries rest := by
  simp only [parseEntries]
  rw [if_neg (fileStartLine_ne_end p), if_neg (by simp [fileStartLine_not_dir]),
    if_pos (fileStartLine_sw_file p)]
  rw [pyDrop_fileStartLine, strip_marker_path p hp, parseFile_spec p pieces [] rest hnem]
  simp

/-! ### Decoding one rendered entry -/

theorem parseEntries_entry (cb : Bool) (e : Entry) (rest : List String)
    (he : goodEntryB e = true) :
    parseEntries ((renderEntry cb e).1 ++ rest) = effectsOfEntry e ++ parseEntries rest := by
  cases e with
  | dir segs =>
    have hsegs : ∀ s ∈ segs, goodNameB s = true := by
      simpa [goodEntryB, List.all_eq_true] using he
    simp only [renderEntry, effectsOfEntry, List.cons_append, List.nil_append]
    exact parseEntries_dir _ rest (joinSegs_good_ends segs hsegs)
  | file segs d =>
    cases d with
    | text pieces =>
      have he2 := he
      simp only [goodEntryB, Bool.and_eq_true, List.all_eq_true] at he2
      have hsegs : ∀ s ∈ segs, goodNameB s = true := he2.1
      have hnem : ∀ l ∈ pieces, pyStrip l ≠ MARKER_FILE_END := by
        have := he2.2
        simp only [noEndMarkerB, List.all_eq_true] at this
        intro l hl
        simpa [bne_iff_ne] using this l hl
      simp only [renderEntry, effectsOfEntry]
      have hshape : (fileStartLine (joinSegs segs) :: pieces ++ [MARKER_FILE_END]) ++ rest
          = fileStartLine (joinSegs segs) :: (pieces ++ MARKER_FILE_END :: rest) := by
        simp
      rw [hshape, parseEntries_file _ _ _ (joinSegs_good_ends segs hsegs) hnem,
        dirnameRel_joinSegs_dropLast segs hsegs]
      simp
    | binary bytes =>
      cases cb with
      | false => simp [renderEntry, effectsOfEntry]
      | true =>
        simp only [renderEntry, effectsOfEntry, if_true]
        have hshape : ([binStartLine (joinSegs segs), b64encode bytes,
            MARKER_FILE_BINARY_END] ++ rest)
            = binStartLine (joinSegs segs) :: b64encode bytes ::
                MARKER_FILE_BINARY_END :: rest := by
          simp
        rw [hshape,
          parseEntries_skip _ _ (binStartLine_ne_end _) (binStartLine_not_dir _)
            (binStartLine_not_file _),
          parseEntries_skip _ _ (payload_ne_end bytes) (payload_not_dir bytes)
            (payload_not_file bytes),
          parseEntries_skip _ _ binEnd_ne_end binEnd_not_dir binEnd_not_file]
        simp
    | unreadable =>
      cases cb <;> simp [renderEntry, effectsOfEntry]

theorem parseEntries_entries (cb : Bool) (entries : List Entry)
    (h : ∀ e ∈ entries, goodEntryB e = true) :
    parseEntries ((entries.map fun e => (renderEntry cb e).1).flatten
        ++ [MARKER_PROJECT_END])
      = (entries.map effectsOfEntry).flatten := by
  induction entries with
  | nil => simpa using parseEntries_end []
  | cons e es ih =>
    simp only [List.map_cons, List.flatten_cons, List.append_assoc]
    rw [parseEntries_entry cb e _ (h e (List.mem_cons_self e es)),
      ih fun x hx => h x (List.mem_cons_of_mem e hx)]

/-! ### The walk produces well-formed entries -/

mutual
theorem walkTree_good (wl bl segs : List String) (t : Tree)
    (hgood : goodTreeB t = true) (hnem : noEndMarkerTreeB t = true)
    (hsegs : ∀ s ∈ segs, goodNameB s = true) :
    ∀ e ∈ walkTree wl bl segs t, goodEntryB e = true := by
  cases t with
  | node files subs =>
    intro e he
    simp only [goodTreeB, Bool.and_eq_true, List.all_eq_true] at hgood
    simp only [noEndMarkerTreeB, Bool.and_eq_true, List.all_eq_true] at hnem
    simp only [walkTree] at he
    rcases List.mem_cons.mp he with rfl | he2
    · simpa [goodEntryB, List.all_eq_true] using hsegs
    rcases List.mem_append.mp he2 with he3 | hforest
    · obtain ⟨fd, hfd, hif⟩ := List.mem_filterMap.mp he3
      by_cases hinc : should_include_file fd.1 wl bl = true
      · rw [if_pos hinc, Option.some.injEq] at hif
        subst hif
        have hfile := hgood.1 fd hfd
        have hsegs2 : ∀ s ∈ segs ++ [fd.1], goodNameB s = true := by
          intro s hs
          rcases List.mem_append.mp hs with hs | hs
          · exact hsegs s hs
          · rw [List.mem_singleton.mp hs]
            exact hfile.1
        cases hd : fd.2 with
        | text pieces =>
          have hn : noEndMarkerB pieces = true := by
            have hn0 := hnem.1 fd hfd
            rw [hd] at hn0
            exact hn0
          simp [goodEntryB, List.all_eq_true, hn, hfile.1]
          exact hsegs
        | binary bytes => simp [goodEntryB]
        | unreadable => simp [goodEntryB]
      · rw [if_neg hinc] at hif
        cases hif
    · exact walkForest_good wl bl segs subs hgood.2 hnem.2 hsegs e hforest

theorem walkForest_good (wl bl segs : List String) (f : Forest)
    (hgood : goodForestB f = true) (hnem : noEndMarkerForestB f = true)
    (hsegs : ∀ s ∈ segs, goodNameB s = true) :
    ∀ e ∈ walkForest wl bl segs f, goodEntryB e = true := by
  cases f with
  | nil => intro e he; cases he
  | cons name child rest =>
    intro e he
    simp only [goodForestB, Bool.and_eq_true] at hgood
    simp only [noEndMarkerForestB, Bool.and_eq_true] at hnem
    simp only [walkForest, List.mem_append] at he
    rcases he with he | he
    · by_cases hkeep : (bl.map pyLower).contains (pyLower name) = true
      · rw [if_pos hkeep] at he
        cases he
      · rw [if_neg hkeep] at he
        have hsegs2 : ∀ s ∈ segs ++ [name], goodNameB s = true := by
          intro s hs
          rcases List.mem_append.mp hs with hs | hs
          · exact hsegs s hs
          · rw [List.mem_singleton.mp hs]
            exact hgood.1.1
        exact walkTree_good wl bl (segs ++ [name]) child hgood.1.2 hnem.1 hsegs2 e he
    · exact walkForest_good wl bl segs rest hgood.2 hnem.2 hsegs e he
end

/-! ### The decoded effects of a walked tree -/

theorem filterMap_all_include (wl bl segs : List String)
    (files : List (String × FileData))
    (h : ∀ fd ∈ files, should_include_file fd.1 wl bl = true) :
    (files.filterMap fun fd =>
        if should_include_file fd.1 wl bl then some (Entry.file (segs ++ [fd.1]) fd.2)
        else none)
      = files.map fun fd => Entry.file (segs ++ [fd.1]) fd.2 := by
  induction files with
  | nil => rfl
  | cons fd fds ih =>
    simp only [List.filterMap_cons, h fd (List.mem_cons_self fd fds), if_pos, List.map_cons]
    rw [ih fun x hx => h x (List.mem_cons_of_mem fd hx)]

theorem files_effects (segs : List String) (files : List (String × FileData)) :
    ((files.map fun fd => Entry.file (segs ++ [fd.1]) fd.2).map effectsOfEntry).flatten
      = files.flatMap fun fd =>
          match fd.2 with
          | .text pieces =>
            [FsEffect.mkdirp (joinSegs segs),
             FsEffect.writeFile (joinSegs (segs ++ [fd.1])) (pieces ++ [""])]
          | _ => [] := by
  induction files with
  | nil => rfl
  | cons fd fds ih =>
    obtain ⟨name, d⟩ := fd
    cases d <;> simp_all [effectsOfEntry, List.dropLast_concat]

mutual
theorem walkTree_effects (wl bl segs : List String) (t : Tree)
    (hadm : admitsAllB wl bl t = true) :
    ((walkTree wl bl segs t).map effectsOfEntry).flatten = restoredTree segs t := by
  cases t with
  | node files subs =>
    simp only [admitsAllB, Bool.and_eq_true, List.all_eq_true] at hadm
    simp only [walkTree, List.map_cons, List.map_append, List.flatten_cons,
      List.flatten_append]
    rw [filterMap_all_include wl bl segs files hadm.1, files_effects segs files,
      walkForest_effects wl bl segs subs hadm.2]
    simp [restoredTree, effectsOfEntry]

theorem walkForest_effects (wl bl segs : List String) (f : Forest)
    (hadm : admitsAllForestB wl bl f = true) :
    ((walkForest wl bl segs f).map effectsOfEntry).flatten = restoredForest segs f := by
  cases f with
  | nil => rfl
  | cons name child rest =>
    simp only [admitsAllForestB, Bool.and_eq_true, Bool.not_eq_true'] at hadm
    obtain ⟨⟨hname, hchild⟩, hrest⟩ := hadm
    simp only [walkForest, hname, Bool.false_eq_true, if_false, List.map_append,
      List.flatten_append]
    rw [walkTree_effects wl bl (segs ++ [name]) child hchild,
      walkForest_effects wl bl segs rest hrest]
    rfl
end

/-! ### Resolving and decoding a produced archive -/

theorem findStartIdx_archive (body : List String) :
    findStartIdx (introLines ++ MARKER_PROJECT_START :: body) = introLines.length := by
  unfold findStartIdx
  rw [findIdx?_append_first _ introLines MARKER_PROJECT_START body (by decide) (by decide) 0]
  simp

theorem drop_intro_start (body : List String) :
    (introLines ++ MARKER_PROJECT_START :: body).drop (introLines.length + 1) = body := by
  rw [show introLines ++ MARKER_PROJECT_START :: body
      = (introLines ++ [MARKER_PROJECT_START]) ++ body by simp]
  rw [show introLines.length + 1 = (introLines ++ [MARKER_PROJECT_START]).length by simp]
  exact List.drop_left _ _

theorem decompress_lines_archive (cb : Bool) (entries : List Entry)
    (h : ∀ e ∈ entries, goodEntryB e = true) :
    decompress_lines (introLines ++ MARKER_PROJECT_START ::
        ((entries.map fun e => (renderEntry cb e).1).flatten ++ [MARKER_PROJECT_END]))
      = ((entries.map effectsOfEntry).flatten, none) := by
  unfold decompress_lines
  rw [findStartIdx_archive]
  rw [if_neg (by decide)]
  rw [drop_intro_start, parseEntries_entries cb entries h]

theorem compress_project_lines (t : Tree) (wl bl : List String) (cb : Bool) :
    (compress_project t wl bl cb).1
      = introLines ++ MARKER_PROJECT_START ::
          (((walkTree wl bl [] t).map fun e => (renderEntry cb e).1).flatten
            ++ [MARKER_PROJECT_END]) := by
  simp only [compress_project, List.map_map]
  rfl

theorem lookup_single (a : String) (v : List String) :
    List.lookup a [(a, v)] = some v := by
  simp [List.lookup]

theorem combine_single (archive : String) (lines : List String) :
    combine_multipart_archive [(archive, lines)] archive = some lines := by
  unfold combine_multipart_archive
  rw [lookup_single]

/-! ### Claim C1: round trip -/

/-- C1 (amended): for every directory tree containing only text-decodable
files, whose names the line format can carry faithfully (nonempty, no
newline or slash, not beginning or ending with a space or a greater-than
sign) and none of whose content lines whitespace-strips to the FILE_END
marker, with a filter configuration admitting every file and pruning no
directory, decompressing the compressed archive aborts nowhere and performs
exactly the effects that materialize the tree: every directory of T is
created and every file of T is written at its own relative path with its
content plus the one trailing newline the encoder appended (the final empty
piece). -/
theorem c1_round_trip_amended (t : Tree) (wl bl : List String) (cb : Bool)
    (archive : String)
    (hgood : goodTreeB t = true) (htext : textOnlyB t = true)
    (hnem : noEndMarkerTreeB t = true) (hadm : admitsAllB wl bl t = true) :
    decompress_project [(archive, (compress_project t wl bl cb).1)] archive
      = (restoredTree [] t, none) := by
  have _txt := htext
  unfold decompress_project
  rw [combine_single]
  show decompress_lines ((compress_project t wl bl cb).1) = (restoredTree [] t, none)
  rw [compress_project_lines,
    decompress_lines_archive cb _
      (walkTree_good wl bl [] t hgood hnem (by intro s hs; cases hs)),
    walkTree_effects wl bl [] t hadm]

/-- C1 as stated is false: a text-decodable file whose content contains a
line that strips to the FILE_END marker is truncated at that line by the
decoder, so the round trip does not reproduce the tree even up to the
trailing newline. -/
theorem c1_counterexample :
    decompress_project
        [("arc.txt",
          (compress_project
            (.node [("note.txt", .text ["keep", "  <<<FILE_END>>>  ", "tail"])] .nil)
            [] [] false).1)]
        "arc.txt"
      = ([.mkdirp "", .mkdirp "", .writeFile "note.txt" ["keep", ""]], none)
    ∧ (["keep", ""] : List String) ≠ ["keep", "  <<<FILE_END>>>  ", "tail"] ++ [""] := by
  constructor
  · decide
  · decide

/-- Witness for c1_round_trip_amended on a concrete two-level tree. -/
theorem c1_round_trip_witness :
    goodTreeB (.node [("a.txt", .text ["hello"])]
        (.cons "sub" (.node [("b.txt", .text ["x", "y"])] .nil) .nil)) = true ∧
    textOnlyB (.node [("a.txt", .text ["hello"])]
        (.cons "sub" (.node [("b.txt", .text ["x", "y"])] .nil) .nil)) = true ∧
    noEndMarkerTreeB (.node [("a.txt", .text ["hello"])]
        (.cons "sub" (.node [("b.txt", .text ["x", "y"])] .nil) .nil)) = true ∧
    admitsAllB [] [] (.node [("a.txt", .text ["hello"])]
        (.cons "sub" (.node [("b.txt", .text ["x", "y"])] .nil) .nil)) = true ∧
    decompress_project
        [("arc.txt",
          (compress_project (.node [("a.txt", .text ["hello"])]
            (.cons "sub" (.node [("b.txt", .text ["x", "y"])] .nil) .nil)) [] [] false).1)]
        "arc.txt"
      = (restoredTree [] (.node [("a.txt", .text ["hello"])]
          (.cons "sub" (.node [("b.txt", .text ["x", "y"])] .nil) .nil)), none) :=
  ⟨by decide, by decide, by decide, by decide,
   c1_round_trip_amended _ [] [] false "arc.txt" (by decide) (by decide) (by decide)
     (by decide)⟩

/-! ### Claim C2: binary round trip -/

/-- C2 (amended): with binary fallback enabled, compress does emit a
BinaryStart/base64-payload/BinaryEnd block for an undecodable file, but
decompress does not parse binary blocks at all: the three block lines fall
through the scanner's effect-free default branch, so no file is written for
the binary entry (here, the only decode effect is creating the root
directory). -/
theorem c2_binary_block_ignored (name : String) (bytes : List Nat) (archive : String)
    (hname : goodNameB name = true) :
    (compress_project (.node [(name, .binary bytes)] .nil) [] [] true).1
      = introLines ++ MARKER_PROJECT_START ::
          [dirLine "", binStartLine name, b64encode bytes, MARKER_FILE_BINARY_END,
           MARKER_PROJECT_END]
    ∧ decompress_project
        [(archive, (compress_project (.node [(name, .binary bytes)] .nil) [] [] true).1)]
        archive
      = ([.mkdirp ""], none) := by
  have _n := hname
  constructor
  · rfl
  · unfold decompress_project
    rw [combine_single]
    show decompress_lines ((compress_project
        (.node [(name, .binary bytes)] .nil) [] [] true).1) = ([.mkdirp ""], none)
    rw [compress_project_lines, decompress_lines_archive true _ ?hg]
    · rfl
    case hg =>
      intro e he
      have he2 : e ∈ [Entry.dir [], Entry.file [name] (.binary bytes)] := he
      rcases List.mem_cons.mp he2 with rfl | he3
      · rfl
      · rcases List.mem_cons.mp he3 with rfl | he4
        · rfl
        · cases he4

/-- C2 as stated is false: the archive of a tree holding one binary file
contains the base64 block, yet decompressing it writes no file at all (the
only effect is creating the root directory). -/
theorem c2_counterexample :
    (compress_project (.node [("b.bin", .binary [104, 105])] .nil) [] [] true).1
      = introLines ++ [MARKER_PROJECT_START, dirLine "", binStartLine "b.bin", "aGk=",
          MARKER_FILE_BINARY_END, MARKER_PROJECT_END]
    ∧ decompress_project
        [("arc.txt",
          (compress_project (.node [("b.bin", .binary [104, 105])] .nil) [] [] true).1)]
        "arc.txt"
      = ([.mkdirp ""], none) := by
  constructor
  · decide
  · decide

/-- Witness for c2_binary_block_ignored at a concrete name and bytes. -/
theorem c2_binary_block_ignored_witness :
    goodNameB "img.png" = true ∧
    decompress_project
        [("a.txt", (compress_project (.node [("img.png", .binary [0, 255, 7])] .nil)
          [] [] true).1)]
        "a.txt"
      = ([.mkdirp ""], none) :=
  ⟨by decide,
   (c2_binary_block_ignored "img.png" [0, 255, 7] "a.txt" (by decide)).2⟩

/-! ### Claim C3: start-marker detection -/

/-- C3 exhibits a code bug: the scan infers marker-not-found from
start_index still being 0, so an archive whose ProjectStart marker is the
very first line is rejected as InvalidFormat even though the marker is
present (its stripped first line equals the marker). -/
theorem c3_start_marker_first_line_rejected :
    pyStrip MARKER_PROJECT_START = MARKER_PROJECT_START ∧
    decompress_lines [MARKER_PROJECT_START, MARKER_PROJECT_END]
      = ([], some .invalidFormat) := by
  constructor
  · decide
  · decide

/-! ### Claim C8: no mutation on abort -/

/-- C8: whenever decompression aborts (archive not found or invalid
format), the effect list is empty: no directory is created and no file is
written before the abort. -/
theorem c8_no_mutation_on_abort (fs : List (String × List String))
    (input_file : String) (e : DErr)
    (h : (decompress_project fs input_file).2 = some e) :
    (decompress_project fs input_file).1 = [] := by
  unfold decompress_project at h ⊢
  cases hres : combine_multipart_archive fs input_file with
  | none => simp
  | some lines =>
    rw [hres] at h
    have h2 : (decompress_lines lines).2 = some e := h
    show (decompress_lines lines).1 = []
    unfold decompress_lines at h2 ⊢
    by_cases hidx : findStartIdx lines = 0
    · simp [hidx]
    · simp [hidx] at h2

/-- Witness for c8_no_mutation_on_abort: a missing archive. -/
theorem c8_no_mutation_witness :
    (decompress_project [] "arc.txt").2 = some DErr.archiveNotFound ∧
    (decompress_project [] "arc.txt").1 = [] :=
  ⟨by decide, c8_no_mutation_on_abort [] "arc.txt" DErr.archiveNotFound (by decide)⟩

/-! ### Claim C9: blacklisted directories are pruned -/

mutual
theorem walkTree_segs_kept (wl bl segs : List String) (t : Tree)
    (hsegs : ∀ s ∈ segs, pyLower s ∉ bl.map pyLower) :
    ∀ e ∈ walkTree wl bl segs t, ∀ s ∈ dirSegsOf e, pyLower s ∉ bl.map pyLower := by
  cases t with
  | node files subs =>
    intro e he
    simp only [walkTree] at he
    rcases List.mem_cons.mp he with rfl | he2
    · simpa [dirSegsOf] using hsegs
    rcases List.mem_append.mp he2 with he3 | hforest
    · obtain ⟨fd, _, hif⟩ := List.mem_filterMap.mp he3
      by_cases hinc : should_include_file fd.1 wl bl = true
      · rw [if_pos hinc, Option.some.injEq] at hif
        subst hif
        simp only [dirSegsOf, List.dropLast_concat]
        exact hsegs
      · rw [if_neg hinc] at hif
        cases hif
    · exact walkForest_segs_kept wl bl segs subs hsegs e hforest

theorem walkForest_segs_kept (wl bl segs : List String) (f : Forest)
    (hsegs : ∀ s ∈ segs, pyLower s ∉ bl.map pyLower) :
    ∀ e ∈ walkForest wl bl segs f, ∀ s ∈ dirSegsOf e, pyLower s ∉ bl.map pyLower := by
  cases f with
  | nil => intro e he; cases he
  | cons name child rest =>
    intro e he
    simp only [walkForest] at he
    rcases List.mem_append.mp he with he2 | he2
    · by_cases hkeep : (bl.map pyLower).contains (pyLower name) = true
      · rw [if_pos hkeep] at he2
        cases he2
      · rw [if_neg hkeep] at he2
        refine walkTree_segs_kept wl bl (segs ++ [name]) child ?_ e he2
        intro s hs
        rcases List.mem_append.mp hs with hs | hs
        · exact hsegs s hs
        · rw [List.mem_singleton.mp hs]
          intro hmem
          exact hkeep (List.elem_iff.mpr hmem)
    · exact walkForest_segs_kept wl bl segs rest hsegs e he2
end

/-- C9: a subdirectory whose bare name case-insensitively matches a
blacklist entry is pruned before descent, so no walked entry — directory,
text file or binary file — has a path that passes through such a
directory: no directory-denoting segment of any entry's path matches a
blacklisted name, at any depth, whatever the whitelist admits. -/
theorem c9_blacklisted_dirs_pruned (t : Tree) (wl bl : List String) (bad : String)
    (hbad : pyLower bad ∈ bl.map pyLower) :
    ∀ e ∈ walkTree wl bl [] t, ∀ s ∈ dirSegsOf e, pyLower s ≠ pyLower bad := by
  intro e he s hs heq
  exact walkTree_segs_kept wl bl [] t (by intro x hx; cases hx) e he s hs (heq ▸ hbad)

/-- Witness for c9_blacklisted_dirs_pruned on Scenario C: blacklist
["build"], tree build/nested/file.txt. -/
theorem c9_blacklisted_dirs_pruned_witness :
    pyLower "build" ∈ (["build"].map pyLower) ∧
    (∀ e ∈ walkTree [".txt"] ["build"] []
        (.node []
          (.cons "build"
            (.node [] (.cons "nested" (.node [("file.txt", .text ["x"])] .nil) .nil))
            .nil)),
      ∀ s ∈ dirSegsOf e, pyLower s ≠ pyLower "build") :=
  ⟨by decide,
   c9_blacklisted_dirs_pruned _ [".txt"] ["build"] "build" (by decide)⟩

/-! ### Claim C10: FILE_END lines inside content -/

mutual
theorem parseEntries_no_end_marker (lines : List String) :
    ∀ p c, FsEffect.writeFile p c ∈ parseEntries lines →
      ∀ s ∈ c, pyStrip s ≠ MARKER_FILE_END := by
  cases lines with
  | nil =>
    intro p c hmem
    simp [parseEntries] at hmem
  | cons line rest =>
    intro p c hmem
    by_cases h1 : line = MARKER_PROJECT_END
    · simp only [parseEntries, if_pos h1] at hmem
      cases hmem
    by_cases h2 : pyStartsWith MARKER_DIR line = true
    · simp only [parseEntries, if_neg h1, if_pos h2] at hmem
      rcases List.mem_cons.mp hmem with heq | hmem2
      · cases heq
      · exact parseEntries_no_end_marker rest p c hmem2
    by_cases h3 : pyStartsWith MARKER_FILE_START line = true
    · simp only [parseEntries, if_neg h1, if_neg h2, if_pos h3] at hmem
      rcases List.mem_cons.mp hmem with heq | hmem2
      · cases heq
      · exact parseFile_no_end_marker _ [] rest (by intro l hl; cases hl) p c hmem2
    · simp only [parseEntries, if_neg h1, if_neg h2, if_neg h3] at hmem
      exact parseEntries_no_end_marker rest p c hmem

theorem parseFile_no_end_marker (q : String) (acc rest : List String)
    (hacc : ∀ l ∈ acc, pyStrip l ≠ MARKER_FILE_END) :
    ∀ p c, FsEffect.writeFile p c ∈ parseFile q acc rest →
      ∀ s ∈ c, pyStrip s ≠ MARKER_FILE_END := by
  cases rest with
  | nil =>
    intro p c hmem s hs
    simp only [parseFile] at hmem
    have heq := List.mem_singleton.mp hmem
    injection heq with hp hc
    subst hc
    rcases List.mem_append.mp hs with hs2 | hs2
    · exact hacc s (List.mem_reverse.mp hs2)
    · rw [List.mem_singleton.mp hs2]
      decide
  | cons line rest2 =>
    intro p c hmem
    by_cases hl : pyStrip line = MARKER_FILE_END
    · simp only [parseFile, if_pos hl] at hmem
      rcases List.mem_cons.mp hmem with heq | hmem2
      · intro s hs
        injection heq with hp hc
        subst hc
        rcases List.mem_append.mp hs with hs2 | hs2
        · exact hacc s (List.mem_reverse.mp hs2)
        · rw [List.mem_singleton.mp hs2]
          decide
      · exact parseEntries_no_end_marker rest2 p c hmem2
    · simp only [parseFile, if_neg hl] at hmem
      refine parseFile_no_end_marker q (line :: acc) rest2 ?_ p c hmem
      intro x hx
      rcases List.mem_cons.mp hx with rfl | hx2
      · exact hl
      · exact hacc x hx2
end

/-- C10: while parsing a text block the decoder ends content accumulation
at the first line whose stripped form equals the FILE_END marker, wherever
that line came from.  First conjunct: no restored text file, from any
archive, contains a line that strips to the marker.  Second conjunct: a
source file whose content holds such a line does not survive the round
trip — its content is truncated at the marker line (and gains the final
empty piece). -/
theorem c10_file_end_truncates :
    (∀ (fs : List (String × List String)) (input_file p : String) (c : List String),
      FsEffect.writeFile p c ∈ (decompress_project fs input_file).1 →
        ∀ s ∈ c, pyStrip s ≠ MARKER_FILE_END) ∧
    decompress_project
        [("arc.txt",
          (compress_project (.node [("a.txt", .text ["x", "<<<FILE_END>>>", "y"])] .nil)
            [] [] false).1)]
        "arc.txt"
      = ([.mkdirp "", .mkdirp "", .writeFile "a.txt" ["x", ""]], none) := by
  constructor
  · intro fs input_file p c hmem
    unfold decompress_project at hmem
    cases hres : combine_multipart_archive fs input_file with
    | none =>
      rw [hres] at hmem
      cases hmem
    | some lines =>
      rw [hres] at hmem
      have hmem2 : FsEffect.writeFile p c ∈ (decompress_lines lines).1 := hmem
      unfold decompress_lines at hmem2
      by_cases hidx : findStartIdx lines = 0
      · rw [if_pos hidx] at hmem2
        cases hmem2
      · rw [if_neg hidx] at hmem2
        exact parseEntries_no_end_marker _ p c hmem2
  · decide

/-- Witness for the universal conjunct of c10_file_end_truncates, applied
to a concrete archive whose decode writes the file "p". -/
theorem c10_file_end_truncates_witness :
    FsEffect.writeFile "p" ["x", ""] ∈
      (decompress_project
        [("a", ["pad", MARKER_PROJECT_START, "<<<FILE_START: p >>>", "x",
          MARKER_FILE_END, MARKER_PROJECT_END])] "a").1 ∧
    pyStrip "x" ≠ MARKER_FILE_END :=
  ⟨by decide,
   c10_file_end_truncates.1
     [("a", ["pad", MARKER_PROJECT_START, "<<<FILE_START: p >>>", "x",
       MARKER_FILE_END, MARKER_PROJECT_END])] "a" "p" ["x", ""] (by decide) "x"
     (by decide)⟩

/-! ### Claim C4: splitter exactness -/

theorem flatten_slices {α : Type} (lines : List α) (N : Nat) (e : Nat) :
    ((List.range e).map fun p => (lines.drop (p * N)).take N).flatten
      = lines.take (e * N) := by
  induction e with
  | zero => simp
  | succ e ih =>
    rw [List.range_succ, List.map_append, List.flatten_append, ih]
    simp only [List.map_cons, List.map_nil, List.flatten_cons, List.flatten_nil,
      List.append_nil]
    rw [Nat.succ_mul, List.take_add]

/-- C4: the splitter, with the line threshold as a positive parameter N.
At most N lines: one write to the target path (an overwrite).  More than N
lines: exactly ceil(L/N) parts; 1-indexed part k is written to the
_part-k name and holds exactly the slice of lines from (k-1)N to kN; every
part except the last holds exactly N lines; the last holds L mod N lines
(N when N divides L); concatenating all parts in order reproduces the
input lines exactly. -/
theorem c4_splitter_exact (threshold : Nat) (output_file : String)
    (lines : List String) (hpos : 0 < threshold) :
    (lines.length ≤ threshold →
      write_lines_core threshold output_file lines = [(output_file, lines)]) ∧
    (threshold < lines.length →
      (write_lines_core threshold output_file lines).length
          = (lines.length + threshold - 1) / threshold ∧
      (∀ k < (lines.length + threshold - 1) / threshold,
        (write_lines_core threshold output_file lines)[k]?
          = some (partName output_file (k + 1),
              (lines.drop (k * threshold)).take threshold)) ∧
      (∀ k, k + 1 < (lines.length + threshold - 1) / threshold →
        ((write_lines_core threshold output_file lines)[k]?.map fun w => w.2.length)
          = some threshold) ∧
      ((write_lines_core threshold output_file lines).getLast?.map fun w => w.2.length)
          = some (if lines.length % threshold = 0 then threshold
              else lines.length % threshold) ∧
      ((write_lines_core threshold output_file lines).map Prod.snd).flatten = lines) := by
  constructor
  · intro hle
    unfold write_lines_core
    rw [if_pos hle]
  · intro hlt
    have hnle : ¬ lines.length ≤ threshold := by omega
    have hwrite : write_lines_core threshold output_file lines
        = (List.range ((lines.length + threshold - 1) / threshold)).map fun p =>
            (partName output_file (p + 1), (lines.drop (p * threshold)).take threshold) := by
      unfold write_lines_core
      rw [if_neg hnle]
    have h1 := Nat.div_add_mod (lines.length + threshold - 1) threshold
    have h2 := Nat.mod_lt (lines.length + threshold - 1) hpos
    obtain ⟨e, he⟩ : ∃ e, (lines.length + threshold - 1) / threshold = e := ⟨_, rfl⟩
    rw [he] at h1 hwrite ⊢
    set L := lines.length with hdefL
    set N := threshold with hdefN
    have hsub : N * (e - 1) = N * e - N * 1 := Nat.mul_sub N e 1
    have hL_le : L ≤ N * e := by omega
    have hlow : N * e - N < L := by omega
    have he1 : 1 ≤ e := by
      rcases Nat.eq_zero_or_pos e with he0 | h
      · rw [he0, Nat.mul_zero] at hL_le
        omega
      · exact h
    refine ⟨by rw [hwrite]; simp, ?_, ?_, ?_, ?_⟩
    · intro k hk
      rw [hwrite, List.getElem?_map, List.getElem?_range hk]
      rfl
    · intro k hk
      have hb : (k + 1) * N ≤ (e - 1) * N := Nat.mul_le_mul_right N (by omega)
      have hc : (e - 1) * N = N * (e - 1) := Nat.mul_comm _ _
      have hsucc : (k + 1) * N = k * N + N := Nat.succ_mul k N
      have hd : k * N + N ≤ L := by omega
      rw [hwrite, List.getElem?_map, List.getElem?_range (by omega)]
      simp only [Option.map_some']
      rw [Option.some.injEq]
      simp only [List.length_take, List.length_drop]
      omega
    · have hle2 : L - (e - 1) * N ≤ N := by
        have hc : (e - 1) * N = N * (e - 1) := Nat.mul_comm _ _
        omega
      have hgt0 : 0 < L - (e - 1) * N := by
        have hc : (e - 1) * N = N * (e - 1) := Nat.mul_comm _ _
        omega
      have hmod : L % N = (L - (e - 1) * N) % N := by
        have hc : (e - 1) * N = N * (e - 1) := Nat.mul_comm _ _
        have hsplit : L = (L - (e - 1) * N) + N * (e - 1) := by omega
        conv_lhs => rw [hsplit]
        rw [Nat.add_mul_mod_self_left]
      rw [hwrite, List.getLast?_map, List.getLast?_eq_getElem?, List.length_range,
        List.getElem?_range (by omega)]
      simp only [Option.map_some']
      rw [Option.some.injEq]
      simp only [List.length_take, List.length_drop]
      by_cases hfull : L - (e - 1) * N = N
      · have : L % N = 0 := by
          rw [hmod, hfull, Nat.mod_self]
        rw [if_pos this]
        omega
      · have hlt2 : L - (e - 1) * N < N := by omega
        have : L % N = L - (e - 1) * N := by
          rw [hmod, Nat.mod_eq_of_lt hlt2]
        rw [if_neg (by omega)]
        omega
    · rw [hwrite, List.map_map]
      have hcomp : (Prod.snd ∘ fun p =>
          ((partName output_file (p + 1), (lines.drop (p * N)).take N) : String × List String))
          = fun p => (lines.drop (p * N)).take N := rfl
      rw [hcomp, flatten_slices lines N e, List.take_of_length_le]
      rw [Nat.mul_comm e N]
      exact hL_le

/-- Witness for c4_splitter_exact: threshold 3 over 7 lines. -/
theorem c4_splitter_exact_witness :
    (0 : Nat) < 3 ∧
    write_lines_core 3 "o.txt" ["1", "2", "3", "4", "5", "6", "7"]
      = [("o_part1.txt", ["1", "2", "3"]), ("o_part2.txt", ["4", "5", "6"]),
         ("o_part3.txt", ["7"])] ∧
    ((write_lines_core 3 "o.txt" ["1", "2", "3", "4", "5", "6", "7"]).map
        Prod.snd).flatten = ["1", "2", "3", "4", "5", "6", "7"] :=
  ⟨by decide, by decide,
   ((c4_splitter_exact 3 "o.txt" ["1", "2", "3", "4", "5", "6", "7"]
      (by decide)).2 (by decide)).2.2.2.2⟩

/-! ### Claim C5: filter rule -/

/-- C5 as stated is false at the extension definition: the claim takes
the substring from the last dot unconditionally, but the code uses
os.path.splitext, under which a basename whose dots are all leading has no
extension; so the file ".txt" with blacklist [".txt"] is included by the
code while the claimed rule excludes it. -/
theorem c5_counterexample :
    should_include_file ".txt" [] [".txt"] = true ∧
    spec_should_include ".txt" [] [".txt"] = false := by
  constructor
  · decide
  · decide

/-- C5 (amended): include(name, wl, bl) returns true iff (wl is empty or
the name's extension is in wl, case-insensitively) and (bl is empty or
that extension is not in bl, case-insensitively), where the extension is
the one computed by os.path.splitext — the lower-cased substring from the
last dot, empty when there is no dot or when the basename's characters
before that dot are all dots, as in ".txt" or ".gitignore".  The blacklist
applies even when the whitelist is non-empty. -/
theorem c5_filter_amended (filename : String) (wl bl : List String) :
    should_include_file filename wl bl = true ↔
      ((wl = [] ∨ pyLower (pySplitext filename).2 ∈ wl.map pyLower) ∧
       (bl = [] ∨ pyLower (pySplitext filename).2 ∉ bl.map pyLower)) := by
  unfold should_include_file
  rcases wl with _ | ⟨w, ws⟩ <;> rcases bl with _ | ⟨b, bs⟩ <;>
    simp [List.contains, List.elem_iff]

/-! ### Claim C6: reassembler -/

theorem probeParts_spec (fs : List (String × List String)) (input_file : String)
    (parts : Nat → List String) (m : Nat)
    (hm : ∀ k, 1 ≤ k → k < m →
      List.lookup (partName input_file k) fs = some (parts k))
    (hnone : List.lookup (partName input_file m) fs = none) :
    ∀ (fuel k : Nat), 1 ≤ k → k ≤ m → m ≤ k + fuel →
      probeParts fs input_file fuel k
        = ((List.range' k (m - k)).map parts).flatten := by
  intro fuel
  induction fuel with
  | zero =>
    intro k h1 h2 h3
    have hkm : k = m := by omega
    subst hkm
    simp [probeParts]
  | succ fuel ih =>
    intro k h1 h2 h3
    by_cases hk : k = m
    · subst hk
      simp [probeParts, hnone]
    · have hkm : k < m := by omega
      have hlook := hm k h1 hkm
      simp only [probeParts, hlook]
      rw [ih (k + 1) (by omega) (by omega) (by omega)]
      have hm2 : m - k = (m - (k + 1)) + 1 := by omega
      rw [hm2, List.range'_succ]
      simp

/-- C6 as stated is false at an edge: when the direct path is missing,
_part1 exists but is empty and _part2 is missing, the found parts'
concatenation is empty and the code reports NotFound even though _part1
exists (the claim says NotFound only when neither the direct path nor
_part1 exists). -/
theorem c6_counterexample :
    List.lookup "a_part1.txt" [("a_part1.txt", ([] : List String))] = some [] ∧
    combine_multipart_archive [("a_part1.txt", [])] "a.txt" = none := by
  constructor
  · decide
  · decide

/-- C6 (amended): if a file exists at the requested path the reassembler
returns exactly its lines.  Otherwise it probes base_part1, base_part2, …
in increasing order, stops at the first missing suffix (m being that first
missing index, reached within the finite filesystem), and returns the
concatenation of all found parts' lines in suffix order — except that an
empty concatenation (in particular when _part1 is already missing, but
also when all found parts are empty) is reported as NotFound. -/
theorem c6_reassembler_amended (fs : List (String × List String)) (input_file : String) :
    (∀ ls, List.lookup input_file fs = some ls →
      combine_multipart_archive fs input_file = some ls) ∧
    (∀ (m : Nat) (parts : Nat → List String),
      List.lookup input_file fs = none →
      1 ≤ m → m ≤ fs.length + 1 →
      (∀ k, 1 ≤ k → k < m →
        List.lookup (partName input_file k) fs = some (parts k)) →
      List.lookup (partName input_file m) fs = none →
      combine_multipart_archive fs input_file
        = (if ((List.range' 1 (m - 1)).map parts).flatten = [] then none
           else some ((List.range' 1 (m - 1)).map parts).flatten)) := by
  constructor
  · intro ls hls
    unfold combine_multipart_archive
    rw [hls]
  · intro m parts hdirect hm1 hmlen hfound hnone
    unfold combine_multipart_archive
    rw [hdirect]
    have hprobe := probeParts_spec fs input_file parts m hfound hnone
      (fs.length + 1) 1 (by omega) (by omega) (by omega)
    simp only [hprobe]
    by_cases hnil : ((List.range' 1 (m - 1)).map parts).flatten = []
    · rw [if_pos hnil, if_neg (by simpa using hnil)]
    · rw [if_neg hnil, if_pos (by simpa using hnil)]

/-- Witness for c6_reassembler_amended: two parts found, part 3 missing. -/
theorem c6_reassembler_witness :
    combine_multipart_archive [("a_part1.txt", ["l1"]), ("a_part2.txt", ["l2"])] "a.txt"
      = some ["l1", "l2"] := by
  have h := (c6_reassembler_amended
      [("a_part1.txt", ["l1"]), ("a_part2.txt", ["l2"])] "a.txt").2
    3 (fun k => if k = 1 then ["l1"] else ["l2"]) (by decide) (by decide) (by decide)
    (by intro k h1 h2; interval_cases k <;> decide) (by decide)
  simpa using h

/-! ### Claim C7: per-file encode failures never abort compression -/

theorem compress_project_diags (t : Tree) (wl bl : List String) (cb : Bool) :
    (compress_project t wl bl cb).2
      = ((walkTree wl bl [] t).map fun e => (renderEntry cb e).2).flatten := by
  simp only [compress_project, List.map_map]
  rfl

theorem renderLines_binary_false (segs : List String) (bytes : List Nat) :
    (renderEntry false (Entry.file segs (.binary bytes))).1 = [] := rfl

theorem renderLines_unreadable (cb : Bool) (segs : List String) :
    (renderEntry cb (Entry.file segs .unreadable)).1 = [] := by
  cases cb <;> rfl

theorem files_scrub_lines (wl bl segs : List String) (cb : Bool)
    (files : List (String × FileData)) :
    ((files.filterMap fun fd =>
        if should_include_file fd.1 wl bl then some (Entry.file (segs ++ [fd.1]) fd.2)
        else none).map fun e => (renderEntry cb e).1).flatten
      = (((files.filter fun fd =>
            match fd.2 with
            | .text _ => true
            | .binary _ => cb
            | .unreadable => false).filterMap fun fd =>
          if should_include_file fd.1 wl bl then some (Entry.file (segs ++ [fd.1]) fd.2)
          else none).map fun e => (renderEntry cb e).1).flatten := by
  induction files with
  | nil => rfl
  | cons fd fds ih =>
    obtain ⟨name, d⟩ := fd
    by_cases hinc : should_include_file name wl bl = true
    · cases d with
      | text pieces =>
        simp only [List.filterMap_cons, List.filter_cons, hinc, if_pos, if_true,
          List.map_cons, List.flatten_cons]
        rw [ih]
      | binary bytes =>
        cases cb with
        | true =>
          simp only [List.filterMap_cons, List.filter_cons, hinc, if_pos, if_true,
            List.map_cons, List.flatten_cons]
          rw [ih]
        | false =>
          simp only [List.filterMap_cons, List.filter_cons, hinc, if_pos,
            Bool.false_eq_true, if_false, List.map_cons, List.flatten_cons,
            renderLines_binary_false, List.nil_append]
          rw [ih]
      | unreadable =>
        simp only [List.filterMap_cons, List.filter_cons, hinc, if_pos,
          Bool.false_eq_true, if_false, List.map_cons, List.flatten_cons,
          renderLines_unreadable, List.nil_append]
        rw [ih]
    · have hinc2 : should_include_file name wl bl = false := by
        rcases h : should_include_file name wl bl
        · rfl
        · exact absurd h hinc
      have hdrop : ∀ (l : List (String × FileData)),
          List.filterMap (fun fd =>
            if should_include_file fd.1 wl bl = true then
              some (Entry.file (segs ++ [fd.1]) fd.2)
            else none) ((name, d) :: l)
          = List.filterMap (fun fd =>
            if should_include_file fd.1 wl bl = true then
              some (Entry.file (segs ++ [fd.1]) fd.2)
            else none) l := by
        intro l
        simp [List.filterMap_cons, hinc2]
      rw [hdrop fds]
      simp only [List.filter_cons]
      split
      · rw [hdrop, ih]
      · rw [ih]

mutual
theorem walkTree_scrub_lines (wl bl segs : List String) (cb : Bool) (t : Tree) :
    ((walkTree wl bl segs t).map fun e => (renderEntry cb e).1).flatten
      = ((walkTree wl bl segs (scrubTree cb t)).map fun e => (renderEntry cb e).1).flatten := by
  cases t with
  | node files subs =>
    simp only [scrubTree, walkTree, List.map_cons, List.map_append, List.flatten_cons,
      List.flatten_append]
    rw [← files_scrub_lines wl bl segs cb files,
      walkForest_scrub_lines wl bl segs cb subs]

theorem walkForest_scrub_lines (wl bl segs : List String) (cb : Bool) (f : Forest) :
    ((walkForest wl bl segs f).map fun e => (renderEntry cb e).1).flatten
      = ((walkForest wl bl segs (scrubForest cb f)).map fun e => (renderEntry cb e).1).flatten := by
  cases f with
  | nil => rfl
  | cons name child rest =>
    simp only [scrubForest, walkForest, List.map_append, List.flatten_append]
    by_cases hkeep : (bl.map pyLower).contains (pyLower name) = true
    · rw [if_pos hkeep, if_pos hkeep, walkForest_scrub_lines wl bl segs cb rest]
    · rw [if_neg hkeep, if_neg hkeep, walkTree_scrub_lines wl bl (segs ++ [name]) cb child,
        walkForest_scrub_lines wl bl segs cb rest]
end

theorem renderDiags_text (cb : Bool) (segs : List String) (pieces : List String) :
    (renderEntry cb (Entry.file segs (.text pieces))).2 = [] := rfl

theorem renderDiags_binary (cb : Bool) (segs : List String) (bytes : List Nat) :
    (renderEntry cb (Entry.file segs (.binary bytes))).2
      = if cb then [] else [Diag.skippedNotText (joinSegs segs)] := by
  cases cb <;> rfl

theorem renderDiags_unreadable (cb : Bool) (segs : List String) :
    (renderEntry cb (Entry.file segs .unreadable)).2
      = if cb then [Diag.binaryReadError (joinSegs segs)]
        else [Diag.skippedNotText (joinSegs segs)] := by
  cases cb <;> rfl

theorem files_diags (wl bl segs : List String) (cb : Bool)
    (files : List (String × FileData)) :
    ((files.filterMap fun fd =>
        if should_include_file fd.1 wl bl then some (Entry.file (segs ++ [fd.1]) fd.2)
        else none).map fun e => (renderEntry cb e).2).flatten
      = files.flatMap fun fd =>
          if should_include_file fd.1 wl bl then
            match fd.2 with
            | .text _ => []
            | .binary _ =>
              if cb then [] else [Diag.skippedNotText (joinSegs (segs ++ [fd.1]))]
            | .unreadable =>
              if cb then [Diag.binaryReadError (joinSegs (segs ++ [fd.1]))]
              else [Diag.skippedNotText (joinSegs (segs ++ [fd.1]))]
          else [] := by
  induction files with
  | nil => rfl
  | cons fd fds ih =>
    obtain ⟨name, d⟩ := fd
    by_cases hinc : should_include_file name wl bl = true
    · cases d with
      | text pieces =>
        simp only [List.filterMap_cons, hinc, if_pos, if_true, List.map_cons,
          List.flatten_cons, List.flatMap_cons, renderDiags_text, List.nil_append]
        rw [ih]
      | binary bytes =>
        simp only [List.filterMap_cons, hinc, if_pos, if_true, List.map_cons,
          List.flatten_cons, List.flatMap_cons, renderDiags_binary]
        rw [ih]
      | unreadable =>
        simp only [List.filterMap_cons, hinc, if_pos, if_true, List.map_cons,
          List.flatten_cons, List.flatMap_cons, renderDiags_unreadable]
        rw [ih]
    · have hinc2 : should_include_file name wl bl = false := by
        rcases h : should_include_file name wl bl
        · rfl
        · exact absurd h hinc
      simp only [List.filterMap_cons, hinc2, Bool.false_eq_true, if_false,
        List.flatMap_cons, List.nil_append]
      rw [ih]

mutual
theorem walkTree_diags (wl bl segs : List String) (cb : Bool) (t : Tree) :
    ((walkTree wl bl segs t).map fun e => (renderEntry cb e).2).flatten
      = badDiagsTree wl bl cb segs t := by
  cases t with
  | node files subs =>
    simp only [walkTree, badDiagsTree, List.map_cons, List.map_append, List.flatten_cons,
      List.flatten_append]
    rw [files_diags wl bl segs cb files, walkForest_diags wl bl segs cb subs]
    rfl

theorem walkForest_diags (wl bl segs : List String) (cb : Bool) (f : Forest) :
    ((walkForest wl bl segs f).map fun e => (renderEntry cb e).2).flatten
      = badDiagsForest wl bl cb segs f := by
  cases f with
  | nil => rfl
  | cons name child rest =>
    simp only [walkForest, badDiagsForest, List.map_append, List.flatten_append]
    by_cases hkeep : (bl.map pyLower).contains (pyLower name) = true
    · rw [if_pos hkeep, if_pos hkeep, walkForest_diags wl bl segs cb rest]
      rfl
    · rw [if_neg hkeep, if_neg hkeep, walkTree_diags wl bl (segs ++ [name]) cb child,
        walkForest_diags wl bl segs cb rest]
end

/-- C7: no per-file read failure ever aborts compression.  The archive of
any tree equals the archive of the tree with every unencodable file
removed (an unreadable file always; a binary file when the fallback is
off) — so a failing file only omits its own block and every later entry is
still processed; the emitted diagnostics are exactly one per admitted
unencodable file (a skip notice, or a binary-read error when even the
fallback read fails); and the archive always runs to completion, ending
with the ProjectEnd marker. -/
theorem c7_encode_failure_never_aborts (t : Tree) (wl bl : List String) (cb : Bool) :
    (compress_project t wl bl cb).1 = (compress_project (scrubTree cb t) wl bl cb).1 ∧
    (compress_project t wl bl cb).2 = badDiagsTree wl bl cb [] t ∧
    (compress_project t wl bl cb).1.getLast? = some MARKER_PROJECT_END := by
  refine ⟨?_, ?_, ?_⟩
  · rw [compress_project_lines, compress_project_lines,
      walkTree_scrub_lines wl bl [] cb t]
  · rw [compress_project_diags, walkTree_diags wl bl [] cb t]
  · have hshape : (compress_project t wl bl cb).1
        = (introLines ++ MARKER_PROJECT_START ::
            ((walkTree wl bl [] t).map fun e => (renderEntry cb e).1).flatten)
          ++ [MARKER_PROJECT_END] := by
      rw [compress_project_lines]
      simp
    rw [hshape, List.getLast?_concat]

end TextCompressor
